import Mathlib

/-!
Shallow embedding of the pinyin tone-mark engine of sam122001/learn_mandarin:
the syllable converter numberToTone (src/src/lib/supabase.ts) and the
embedded-annotation rewriter formatMeaningWithPinyin
(src/src/components/HSKBrowser.tsx and PracticeSheet.tsx), together with
theorems settling the specification claims about them.
Strings are modelled as lists of Unicode scalar values; every character the
engine manipulates lies in the Basic Multilingual Plane, where JavaScript
UTF-16 code units coincide with scalar values.
-/

namespace LearnMandarin

/-- Lower-casing as performed by JavaScript String.prototype.toLowerCase on
the code points the engine can meet: ASCII A-Z and the Latin-1 uppercase
letters (0xC0-0xDE except the multiplication sign 0xD7) move down by 0x20;
every other character is returned unchanged. -/
def jsToLower (c : Char) : Char :=
  if 0x41 ≤ c.toNat ∧ c.toNat ≤ 0x5A then Char.ofNat (c.toNat + 32)
  else if 0xC0 ≤ c.toNat ∧ c.toNat ≤ 0xDE ∧ c.toNat ≠ 0xD7 then Char.ofNat (c.toNat + 32)
  else c

/-- The TONE_MARKS table of src/src/lib/supabase.ts: each recognized vowel
letter maps to its four diacritic variants for tones 1-4; the letter v is an
alias row equal to the row of ü.  Keys outside the table give the empty
list (the code never looks such keys up). -/
def TONE_MARKS (c : Char) : List Char :=
  if c = 'a' then ['ā', 'á', 'ǎ', 'à']
  else if c = 'e' then ['ē', 'é', 'ě', 'è']
  else if c = 'i' then ['ī', 'í', 'ǐ', 'ì']
  else if c = 'o' then ['ō', 'ó', 'ǒ', 'ò']
  else if c = 'u' then ['ū', 'ú', 'ǔ', 'ù']
  else if c = 'ü' then ['ǖ', 'ǘ', 'ǚ', 'ǜ']
  else if c = 'v' then ['ǖ', 'ǘ', 'ǚ', 'ǜ']
  else []

/-- JavaScript row indexing TONE_MARKS[vowel][tone - 1] as it behaves inside
String.prototype.replace: an in-range index yields that single character,
while an out-of-range index yields undefined, which replace coerces to the
literal text "undefined". -/
def toneRepl (row : List Char) (tone : Nat) : List Char :=
  match row.get? (tone - 1) with
  | some m => [m]
  | none => "undefined".toList

/-- First-occurrence replacement, as JavaScript String.prototype.replace with
a non-global pattern: the first character satisfying p is replaced by repl;
when no character matches, the list is unchanged. -/
def replaceFirstP (p : Char → Bool) (repl : List Char) : List Char → List Char
  | [] => []
  | c :: rest => if p c then repl ++ rest else c :: replaceFirstP p repl rest

/-- The character class of the regex [üv] used by the ü branch. -/
def isUV (c : Char) : Bool := c == 'ü' || c == 'v'

/-- numberToTone of src/src/lib/supabase.ts, on the character list of its
input.  The trailing-digit test models the regex (\d)$, digit stripping
models replace of the regex consisting of \d$ by the empty string, and each
vowel branch models includes followed by a first-occurrence replace. -/
def numberToToneL (pinyin : List Char) : List Char :=
  match pinyin.getLast? with
  | none => pinyin.map jsToLower
  | some last =>
    if ¬ last.isDigit then pinyin.map jsToLower
    else
      let tone := last.toNat - 48
      if tone = 5 ∨ tone = 0 then pinyin.dropLast.map jsToLower
      else
        let q := pinyin.dropLast.map jsToLower
        if q.contains 'ü' ∨ q.contains 'v' then
          replaceFirstP isUV (toneRepl (TONE_MARKS 'ü') tone) q
        else if q.contains 'a' then
          replaceFirstP (· == 'a') (toneRepl (TONE_MARKS 'a') tone) q
        else if q.contains 'e' then
          replaceFirstP (· == 'e') (toneRepl (TONE_MARKS 'e') tone) q
        else if q.contains 'o' then
          replaceFirstP (· == 'o') (toneRepl (TONE_MARKS 'o') tone) q
        else if q.contains 'i' then
          replaceFirstP (· == 'i') (toneRepl (TONE_MARKS 'i') tone) q
        else if q.contains 'u' then
          replaceFirstP (· == 'u') (toneRepl (TONE_MARKS 'u') tone) q
        else q

/-- numberToTone on strings. -/
def numberToTone (pinyin : String) : String := (numberToToneL pinyin.toList).asString

/-- The character class [a-züv] of the bracket pattern under the flag i of
JavaScript regular expressions: the ASCII letters of either case, the letter
ü, and its uppercase Ü (canonicalisation maps Ü to ü; no other code point
case-folds into the class without the unicode flag). -/
def isAnnLetter (c : Char) : Bool :=
  decide (('a' ≤ c ∧ c ≤ 'z') ∨ ('A' ≤ c ∧ c ≤ 'Z') ∨ c = 'ü' ∨ c = 'Ü')

/-- Attempt the tail of the bracket pattern right after an opening bracket:
a maximal nonempty run of class letters, then exactly one decimal digit,
then the closing bracket.  Backtracking in the regex cannot shorten the run,
because a shorter run would have to continue with a letter where a digit is
required; so the regex match is equivalent to this deterministic test.
On success, returns the captured letters with the digit appended (the
argument handed to numberToTone) and the text after the closing bracket. -/
def tryAnnAux (letters : List Char) : List Char → Option (List Char × List Char)
  | d :: rbr :: tail =>
    if letters ≠ [] ∧ d.isDigit ∧ rbr = ']' then some (letters ++ [d], tail) else none
  | _ => none

def tryAnn (rest : List Char) : Option (List Char × List Char) :=
  tryAnnAux (rest.takeWhile isAnnLetter) (rest.dropWhile isAnnLetter)

lemma tryAnnAux_some {L l syl tail : List Char} (h : tryAnnAux L l = some (syl, tail)) :
    ∃ d rbr, l = d :: rbr :: tail ∧ L ≠ [] ∧ d.isDigit = true ∧ rbr = ']' ∧
      syl = L ++ [d] := by
  match l with
  | [] => exact Option.noConfusion h
  | [d] => exact Option.noConfusion h
  | d :: rbr :: t =>
    have h' : (if L ≠ [] ∧ d.isDigit = true ∧ rbr = ']' then some (L ++ [d], t)
        else none) = some (syl, tail) := h
    by_cases hcond : L ≠ [] ∧ d.isDigit = true ∧ rbr = ']'
    · rw [if_pos hcond] at h'
      simp only [Option.some.injEq, Prod.mk.injEq] at h'
      refine ⟨d, rbr, ?_, hcond.1, hcond.2.1, hcond.2.2, h'.1.symm⟩
      rw [h'.2]
    · rw [if_neg hcond] at h'
      exact Option.noConfusion h'

lemma tryAnn_some_elim {rest syl tail : List Char} (h : tryAnn rest = some (syl, tail)) :
    ∃ d, rest = rest.takeWhile isAnnLetter ++ d :: ']' :: tail ∧
      rest.takeWhile isAnnLetter ≠ [] ∧ d.isDigit = true ∧
      syl = rest.takeWhile isAnnLetter ++ [d] := by
  obtain ⟨d, rbr, hdw, hne, hd, hrbr, hsyl⟩ := tryAnnAux_some h
  refine ⟨d, ?_, hne, hd, hsyl⟩
  subst hrbr
  calc rest = rest.takeWhile isAnnLetter ++ rest.dropWhile isAnnLetter := by
        rw [List.takeWhile_append_dropWhile]
    _ = rest.takeWhile isAnnLetter ++ d :: ']' :: tail := by rw [hdw]

lemma tryAnn_some_length {rest syl tail : List Char}
    (h : tryAnn rest = some (syl, tail)) : tail.length < rest.length := by
  obtain ⟨d, hrest, -, -, -⟩ := tryAnn_some_elim h
  rw [hrest]
  simp only [List.length_append, List.length_cons]
  omega

/-- The scan-and-substitute loop of the regex replace in
formatMeaningWithPinyin, on character lists, written with a step budget so
the recursion is structural (the budget is consumed once per consumed
character, so any budget at least the length of the text gives the same
result): at each position, if the character opens a bracket whose tail
matches the pattern, the whole match is replaced by the bracketed
conversion and scanning resumes after the closing bracket; otherwise the
character is copied and scanning moves one position to the right, exactly
as a global regex replace does. -/
def rewriteFuel : Nat → List Char → List Char
  | _, [] => []
  | 0, l => l
  | fuel + 1, c :: rest =>
    if c = '[' then
      match tryAnn rest with
      | some (syl, tail) => '[' :: (numberToToneL syl ++ ']' :: rewriteFuel fuel tail)
      | none => '[' :: rewriteFuel fuel rest
    else c :: rewriteFuel fuel rest

/-- The rewriting scan with its budget instantiated to the text length,
which the budget never falls below. -/
def rewriteAux (l : List Char) : List Char := rewriteFuel l.length l

lemma rewriteFuel_congr :
    ∀ (f₁ : Nat) (l : List Char), l.length ≤ f₁ → ∀ (f₂ : Nat), l.length ≤ f₂ →
      rewriteFuel f₁ l = rewriteFuel f₂ l := by
  intro f₁
  induction f₁ with
  | zero =>
    intro l hl
    rw [Nat.le_zero] at hl
    rw [List.length_eq_zero] at hl
    subst hl
    intro f₂ _
    cases f₂ <;> rfl
  | succ g ih =>
    intro l hl f₂ h₂
    cases l with
    | nil => cases f₂ <;> rfl
    | cons c rest =>
      simp only [List.length_cons] at hl h₂
      cases f₂ with
      | zero => omega
      | succ g₂ =>
        simp only [rewriteFuel]
        by_cases hc : c = '['
        · rw [if_pos hc, if_pos hc]
          rcases ha : tryAnn rest with _ | ⟨syl, tail⟩
          · simp only [ha]
            rw [ih rest (by omega) g₂ (by omega)]
          · have htail := tryAnn_some_length ha
            simp only [ha]
            rw [ih tail (by omega) g₂ (by omega)]
        · rw [if_neg hc, if_neg hc]
          rw [ih rest (by omega) g₂ (by omega)]

lemma rewriteAux_nil : rewriteAux [] = [] := rfl

lemma rewriteAux_cons (c : Char) (rest : List Char) :
    rewriteAux (c :: rest) =
      if c = '[' then
        match tryAnn rest with
        | some (syl, tail) => '[' :: (numberToToneL syl ++ ']' :: rewriteAux tail)
        | none => '[' :: rewriteAux rest
      else c :: rewriteAux rest := by
  show rewriteFuel (rest.length + 1) (c :: rest) = _
  simp only [rewriteFuel]
  by_cases hc : c = '['
  · rw [if_pos hc, if_pos hc]
    rcases ha : tryAnn rest with _ | ⟨syl, tail⟩
    · simp only [ha]
      rfl
    · have htail := tryAnn_some_length ha
      simp only [ha]
      rw [rewriteFuel_congr rest.length tail (by omega) tail.length (by omega)]
      rfl
  · rw [if_neg hc, if_neg hc]
    rfl

/-- formatMeaningWithPinyin of src/src/components/HSKBrowser.tsx and
src/src/components/PracticeSheet.tsx (the two copies are identical): the
global case-insensitive regex replace of every bracketed letters-plus-digit
annotation by the bracketed numberToTone conversion of its capture. -/
def formatMeaningWithPinyin (meaning : String) : String :=
  (rewriteAux meaning.toList).asString

/-- Does the annotation pattern match anywhere in the text: true exactly
when some position opens a bracket whose tail matches the pattern. -/
def hasAnn : List Char → Bool
  | [] => false
  | c :: rest => ((c == '[') && (tryAnn rest).isSome) || hasAnn rest

/-- Modelled from the spec wording of the fixed priority order: the
canonical vowel chosen for marking - ü or v checked jointly, then a, then
e, then o, then i, then u - or none when the digit-stripped, lower-cased
text contains no recognized vowel.  Used to compare the code against the
stated rule. -/
def chosenVowel (q : List Char) : Option Char :=
  if q.contains 'ü' ∨ q.contains 'v' then some 'ü'
  else if q.contains 'a' then some 'a'
  else if q.contains 'e' then some 'e'
  else if q.contains 'o' then some 'o'
  else if q.contains 'i' then some 'i'
  else if q.contains 'u' then some 'u'
  else none

/-- The occurrence class belonging to a chosen vowel: the joint ü or v
class for ü, and the literal character otherwise. -/
def classOf (v : Char) : Char → Bool :=
  if v = 'ü' then isUV else (· == v)

/-- The digit-stripped, lower-cased form of a list that ends in a digit. -/
def stripLowerL (l : List Char) : List Char := l.dropLast.map jsToLower

/-- The trailing tone digit of a string, when its last character is a
decimal digit. -/
def lastDigit (s : String) : Option Char :=
  s.toList.getLast?.filter Char.isDigit

/-- Replacing every letter ü of the input by the letter v, the substitution
whose invariance the ü/v-alias claim asserts. -/
def substUV (s : String) : String :=
  (s.toList.map (fun c => if c = 'ü' then 'v' else c)).asString

/-! ### Character-level bridge lemmas -/

lemma char_le_iff {a b : Char} : a ≤ b ↔ a.toNat ≤ b.toNat := by
  simp [Char.le_def, UInt32.le_def, BitVec.le_def, Char.toNat, UInt32.toNat]

lemma char_eq_iff {a b : Char} : a = b ↔ a.toNat = b.toNat := by
  constructor
  · intro h
    rw [h]
  · intro h
    apply Char.eq_of_val_eq
    apply UInt32.eq_of_toBitVec_eq
    apply BitVec.eq_of_toNat_eq
    exact h

lemma toNat_ofNat_lt {n : Nat} (h : n < 55296) : (Char.ofNat n).toNat = n := by
  have hv : n.isValidChar := Or.inl h
  unfold Char.ofNat
  rw [dif_pos hv]
  rfl

lemma uint32_le_iff {a b : UInt32} : a ≤ b ↔ a.toNat ≤ b.toNat := by
  simp [UInt32.le_def, BitVec.le_def, UInt32.toNat]

lemma isDigit_iff {c : Char} : c.isDigit = true ↔ 48 ≤ c.toNat ∧ c.toNat ≤ 57 := by
  unfold Char.isDigit
  simp only [Bool.and_eq_true, decide_eq_true_eq, ge_iff_le]
  rw [uint32_le_iff, uint32_le_iff]
  exact Iff.rfl

lemma isAnnLetter_iff {c : Char} :
    isAnnLetter c = true ↔
      (97 ≤ c.toNat ∧ c.toNat ≤ 122) ∨ (65 ≤ c.toNat ∧ c.toNat ≤ 90) ∨
        c.toNat = 252 ∨ c.toNat = 220 := by
  unfold isAnnLetter
  simp only [decide_eq_true_eq]
  rw [char_le_iff, char_le_iff, char_le_iff, char_le_iff, char_eq_iff, char_eq_iff]
  simp only [show ('a' : Char).toNat = 97 from rfl, show ('z' : Char).toNat = 122 from rfl,
    show ('A' : Char).toNat = 65 from rfl, show ('Z' : Char).toNat = 90 from rfl,
    show ('ü' : Char).toNat = 252 from rfl, show ('Ü' : Char).toNat = 220 from rfl]

lemma isUV_iff {c : Char} : isUV c = true ↔ c.toNat = 252 ∨ c.toNat = 118 := by
  unfold isUV
  simp only [Bool.or_eq_true, beq_iff_eq]
  rw [char_eq_iff, char_eq_iff]
  simp only [show ('ü' : Char).toNat = 252 from rfl, show ('v' : Char).toNat = 118 from rfl]

/-- The value of jsToLower, expressed on code points. -/
lemma jsToLower_toNat (c : Char) :
    (jsToLower c).toNat =
      if (65 ≤ c.toNat ∧ c.toNat ≤ 90) ∨
          (192 ≤ c.toNat ∧ c.toNat ≤ 222 ∧ c.toNat ≠ 215) then c.toNat + 32
      else c.toNat := by
  unfold jsToLower
  by_cases h1 : 65 ≤ c.toNat ∧ c.toNat ≤ 90
  · rw [if_pos (by omega), if_pos (by omega)]
    exact toNat_ofNat_lt (by omega)
  · rw [if_neg (by omega)]
    by_cases h2 : 192 ≤ c.toNat ∧ c.toNat ≤ 222 ∧ c.toNat ≠ 215
    · rw [if_pos (by omega), if_pos (by omega)]
      exact toNat_ofNat_lt (by omega)
    · rw [if_neg (by omega), if_neg (by omega)]

/-- jsToLower maps the bracket-pattern letter class into lower-case letters
and ü: never a digit, never a bracket. -/
lemma jsToLower_ann {c : Char} (h : isAnnLetter c = true) :
    ((97 ≤ (jsToLower c).toNat ∧ (jsToLower c).toNat ≤ 122) ∨
      (jsToLower c).toNat = 252) := by
  rw [isAnnLetter_iff] at h
  rw [jsToLower_toNat]
  split_ifs with hcase <;> omega

/-! ### Branch equations of the converter -/

lemma ntL_none {p : List Char} (h : p.getLast? = none) :
    numberToToneL p = p.map jsToLower := by
  unfold numberToToneL
  rw [h]

lemma ntL_some_eq {p : List Char} {last : Char} (h : p.getLast? = some last) :
    numberToToneL p =
      (if ¬ last.isDigit then p.map jsToLower
       else if last.toNat - 48 = 5 ∨ last.toNat - 48 = 0 then p.dropLast.map jsToLower
       else if (p.dropLast.map jsToLower).contains 'ü' ∨
           (p.dropLast.map jsToLower).contains 'v' then
         replaceFirstP isUV (toneRepl (TONE_MARKS 'ü') (last.toNat - 48))
           (p.dropLast.map jsToLower)
       else if (p.dropLast.map jsToLower).contains 'a' then
         replaceFirstP (· == 'a') (toneRepl (TONE_MARKS 'a') (last.toNat - 48))
           (p.dropLast.map jsToLower)
       else if (p.dropLast.map jsToLower).contains 'e' then
         replaceFirstP (· == 'e') (toneRepl (TONE_MARKS 'e') (last.toNat - 48))
           (p.dropLast.map jsToLower)
       else if (p.dropLast.map jsToLower).contains 'o' then
         replaceFirstP (· == 'o') (toneRepl (TONE_MARKS 'o') (last.toNat - 48))
           (p.dropLast.map jsToLower)
       else if (p.dropLast.map jsToLower).contains 'i' then
         replaceFirstP (· == 'i') (toneRepl (TONE_MARKS 'i') (last.toNat - 48))
           (p.dropLast.map jsToLower)
       else if (p.dropLast.map jsToLower).contains 'u' then
         replaceFirstP (· == 'u') (toneRepl (TONE_MARKS 'u') (last.toNat - 48))
           (p.dropLast.map jsToLower)
       else p.dropLast.map jsToLower) := by
  unfold numberToToneL
  rw [h]

lemma ntL_notDigit {p : List Char} {last : Char} (h : p.getLast? = some last)
    (hd : last.isDigit = false) : numberToToneL p = p.map jsToLower := by
  rw [ntL_some_eq h, if_pos (by simp [hd])]

lemma ntL_neutral {p : List Char} {last : Char} (h : p.getLast? = some last)
    (hd : last.isDigit = true)
    (h50 : last.toNat - 48 = 5 ∨ last.toNat - 48 = 0) :
    numberToToneL p = p.dropLast.map jsToLower := by
  rw [ntL_some_eq h, if_neg (by simp [hd]), if_pos h50]

lemma ntL_toned {p : List Char} {last : Char} (h : p.getLast? = some last)
    (hd : last.isDigit = true)
    (h5 : last.toNat - 48 ≠ 5) (h0 : last.toNat - 48 ≠ 0) :
    numberToToneL p =
      match chosenVowel (p.dropLast.map jsToLower) with
      | none => p.dropLast.map jsToLower
      | some v =>
        replaceFirstP (classOf v) (toneRepl (TONE_MARKS v) (last.toNat - 48))
          (p.dropLast.map jsToLower) := by
  rw [ntL_some_eq h, if_neg (by simp [hd]), if_neg (not_or.mpr ⟨h5, h0⟩)]
  unfold chosenVowel
  by_cases c1 : (p.dropLast.map jsToLower).contains 'ü' ∨ (p.dropLast.map jsToLower).contains 'v'
  · rw [if_pos c1, if_pos c1]
    exact rfl
  · rw [if_neg c1, if_neg c1]
    by_cases c2 : (p.dropLast.map jsToLower).contains 'a'
    · rw [if_pos c2, if_pos c2]
      exact rfl
    · rw [if_neg c2, if_neg c2]
      by_cases c3 : (p.dropLast.map jsToLower).contains 'e'
      · rw [if_pos c3, if_pos c3]
        exact rfl
      · rw [if_neg c3, if_neg c3]
        by_cases c4 : (p.dropLast.map jsToLower).contains 'o'
        · rw [if_pos c4, if_pos c4]
          exact rfl
        · rw [if_neg c4, if_neg c4]
          by_cases c5 : (p.dropLast.map jsToLower).contains 'i'
          · rw [if_pos c5, if_pos c5]
            exact rfl
          · rw [if_neg c5, if_neg c5]
            by_cases c6 : (p.dropLast.map jsToLower).contains 'u'
            · rw [if_pos c6, if_pos c6]
              exact rfl
            · rw [if_neg c6, if_neg c6]

/-! ### lastDigit bridge -/

lemma lastDigit_some_iff {s : String} {d : Char} :
    lastDigit s = some d ↔ s.toList.getLast? = some d ∧ d.isDigit = true := by
  unfold lastDigit
  rcases hg : s.toList.getLast? with _ | c
  · simp
  · rw [Option.filter_some]
    by_cases hc : c.isDigit = true
    · rw [if_pos hc]
      constructor
      · intro h
        cases h
        exact ⟨rfl, hc⟩
      · intro h
        cases h.1
        rfl
    · rw [if_neg hc]
      simp only [Bool.not_eq_true] at hc
      constructor
      · intro h
        cases h
      · intro h
        cases h.1
        rw [hc] at h
        cases h.2

lemma lastDigit_none_elim {s : String} (h : lastDigit s = none) :
    numberToToneL s.toList = s.toList.map jsToLower := by
  unfold lastDigit at h
  rcases hg : s.toList.getLast? with _ | c
  · exact ntL_none hg
  · rw [hg, Option.filter_some] at h
    by_cases hc : c.isDigit = true
    · rw [if_pos hc] at h
      cases h
    · rw [if_neg hc] at h
      simp only [Bool.not_eq_true] at hc
      exact ntL_notDigit hg hc

lemma numberToTone_eq_of_ntL {s : String} {l : List Char}
    (h : numberToToneL s.toList = l) : numberToTone s = l.asString := by
  unfold numberToTone
  rw [h]

lemma chosenVowel_mem {q : List Char} {v : Char} (hv : chosenVowel q = some v) :
    v = 'ü' ∨ v = 'a' ∨ v = 'e' ∨ v = 'o' ∨ v = 'i' ∨ v = 'u' := by
  unfold chosenVowel at hv
  split_ifs at hv
  · exact Or.inl (Option.some.inj hv).symm
  · exact Or.inr (Or.inl (Option.some.inj hv).symm)
  · exact Or.inr (Or.inr (Or.inl (Option.some.inj hv).symm))
  · exact Or.inr (Or.inr (Or.inr (Or.inl (Option.some.inj hv).symm)))
  · exact Or.inr (Or.inr (Or.inr (Or.inr (Or.inl (Option.some.inj hv).symm))))
  · exact Or.inr (Or.inr (Or.inr (Or.inr (Or.inr (Option.some.inj hv).symm))))

lemma TONE_MARKS_len {v : Char} (hv : v = 'ü' ∨ v = 'a' ∨ v = 'e' ∨ v = 'o' ∨
    v = 'i' ∨ v = 'u') : (TONE_MARKS v).length = 4 := by
  rcases hv with h | h | h | h | h | h <;> rw [h] <;> decide

lemma toneRepl_oob {row : List Char} {tone : Nat} (h : row.length ≤ tone - 1) :
    toneRepl row tone = "undefined".toList := by
  unfold toneRepl
  rw [List.get?_eq_getElem?, List.getElem?_eq_none h]

/-- The toned branch of the converter, stated through the chosen vowel:
with a trailing digit other than 5 and 0, the code either returns the
stripped lower-cased text (no recognized vowel) or replaces the first
occurrence of the chosen class by the tone replacement of that vowel. -/
lemma nt_cases {s : String} {d : Char} (hd : lastDigit s = some d)
    (h5 : d.toNat - 48 ≠ 5) (h0 : d.toNat - 48 ≠ 0) :
    (chosenVowel (stripLowerL s.toList) = none →
      numberToTone s = (stripLowerL s.toList).asString) ∧
    (∀ v, chosenVowel (stripLowerL s.toList) = some v →
      numberToTone s =
        (replaceFirstP (classOf v) (toneRepl (TONE_MARKS v) (d.toNat - 48))
          (stripLowerL s.toList)).asString) := by
  obtain ⟨hg, hdig⟩ := lastDigit_some_iff.mp hd
  have hmain := ntL_toned hg hdig h5 h0
  constructor
  · intro hnone
    rw [show stripLowerL s.toList = s.toList.dropLast.map jsToLower from rfl] at hnone ⊢
    rw [hnone] at hmain
    exact numberToTone_eq_of_ntL hmain
  · intro v hv
    rw [show stripLowerL s.toList = s.toList.dropLast.map jsToLower from rfl] at hv ⊢
    rw [hv] at hmain
    exact numberToTone_eq_of_ntL hmain

/-! ### Claim C1 -/

/-- Claim C1: the claim states that the converter marks the second vowel of
an "iu" combination, with convert of "jiu3" equal to "jiǔ".  The code does
not: its fixed priority list checks i before u, so numberToTone of "jiu3"
yields "jǐu", with the diacritic on i.  Standard pinyin places the mark on
u in "iu", and the whole purpose of the function is to produce standard
pinyin, so this is a bug of the code at the input "jiu3"; this theorem
evaluates the code there and records the divergence from the claim. -/
theorem C1_jiu_marks_i :
    numberToTone "jiu3" = "jǐu" ∧ numberToTone "jiu3" ≠ "jiǔ" := by
  constructor
  · decide
  · decide

/-! ### Claim C5 -/

/-- Claim C5: a bracketed fragment with anything between the single digit
and the closing bracket, such as the second digit in "[ba12]", is not
matched by the pattern of the rewriter and is left in the output verbatim. -/
theorem C5_two_digit_bracket_verbatim :
    formatMeaningWithPinyin "[ba12]" = "[ba12]" := by
  decide

/-! ### Claim C7 -/

/-- Claim C7: for tone digits 1 through 4, the first occurrence of the
chosen vowel is replaced by the diacritic variant at index t - 1 of that
vowel's four-element row of the tone-mark table: the four tones of "ma"
give "mā", "má", "mǎ", "mà"; and in general, writing t for the digit value,
the result replaces the first occurrence of the chosen vowel class by the
row entry at index t - 1. -/
theorem C7_tone_rows :
    (numberToTone "ma1" = "mā" ∧ numberToTone "ma2" = "má" ∧
     numberToTone "ma3" = "mǎ" ∧ numberToTone "ma4" = "mà") ∧
    ∀ (s : String) (d v : Char), lastDigit s = some d →
      49 ≤ d.toNat → d.toNat ≤ 52 →
      chosenVowel (stripLowerL s.toList) = some v →
      numberToTone s =
        (replaceFirstP (classOf v)
          [(TONE_MARKS v).getD (d.toNat - 49) ' ']
          (stripLowerL s.toList)).asString := by
  refine ⟨⟨by decide, by decide, by decide, by decide⟩, ?_⟩
  intro s d v hd h1 h2 hv
  obtain ⟨hg, hdig⟩ := lastDigit_some_iff.mp hd
  have h5 : d.toNat - 48 ≠ 5 := by omega
  have h0 : d.toNat - 48 ≠ 0 := by omega
  have hmain := ntL_toned hg hdig h5 h0
  rw [show stripLowerL s.toList = s.toList.dropLast.map jsToLower from rfl] at hv ⊢
  rw [hv] at hmain
  have hmain' : numberToToneL s.toList =
      replaceFirstP (classOf v) (toneRepl (TONE_MARKS v) (d.toNat - 48))
        (s.toList.dropLast.map jsToLower) := hmain
  have hvmem : v = 'ü' ∨ v = 'a' ∨ v = 'e' ∨ v = 'o' ∨ v = 'i' ∨ v = 'u' := by
    unfold chosenVowel at hv
    split_ifs at hv
    · exact Or.inl (Option.some.inj hv).symm
    · exact Or.inr (Or.inl (Option.some.inj hv).symm)
    · exact Or.inr (Or.inr (Or.inl (Option.some.inj hv).symm))
    · exact Or.inr (Or.inr (Or.inr (Or.inl (Option.some.inj hv).symm)))
    · exact Or.inr (Or.inr (Or.inr (Or.inr (Or.inl (Option.some.inj hv).symm))))
    · exact Or.inr (Or.inr (Or.inr (Or.inr (Or.inr (Option.some.inj hv).symm))))
  have hrow : (TONE_MARKS v).length = 4 := by
    rcases hvmem with h | h | h | h | h | h <;> rw [h] <;> decide
  have hidx : d.toNat - 49 < (TONE_MARKS v).length := by omega
  have hrepl : toneRepl (TONE_MARKS v) (d.toNat - 48) =
      [(TONE_MARKS v).getD (d.toNat - 49) ' '] := by
    unfold toneRepl
    rw [show d.toNat - 48 - 1 = d.toNat - 49 by omega]
    rw [List.get?_eq_getElem?, List.getElem?_eq_getElem hidx]
    rw [List.getD_eq_getElem?_getD, List.getElem?_eq_getElem hidx]
    rfl
  apply numberToTone_eq_of_ntL
  rw [hmain', hrepl]

/-! ### Claim C8 -/

/-- Claim C8: a trailing digit 5 or 0 is stripped and no diacritic is
added, and an input whose last character is not a decimal digit is
returned lower-cased with no other change; in particular "ma5", "ma0" and
"ma" all convert to "ma". -/
theorem C8_neutral_and_no_digit :
    (∀ s : String, lastDigit s = none →
      numberToTone s = (s.toList.map jsToLower).asString) ∧
    (∀ (s : String) (d : Char), lastDigit s = some d → (d = '5' ∨ d = '0') →
      numberToTone s = (stripLowerL s.toList).asString) ∧
    numberToTone "ma5" = "ma" ∧ numberToTone "ma0" = "ma" ∧
    numberToTone "ma" = "ma" := by
  refine ⟨?_, ?_, by decide, by decide, by decide⟩
  · intro s h
    exact numberToTone_eq_of_ntL (lastDigit_none_elim h)
  · intro s d hd h50
    obtain ⟨hg, hdig⟩ := lastDigit_some_iff.mp hd
    apply numberToTone_eq_of_ntL
    apply ntL_neutral hg hdig
    rcases h50 with h | h <;> rw [h]
    · left
      decide
    · right
      decide

/-- Witness for claim C8: the no-digit clause at "MA" and the neutral-tone
clause at "mA5", evaluated. -/
theorem C8_witness : numberToTone "MA" = "ma" ∧ numberToTone "mA5" = "ma" := by
  constructor
  · rw [C8_neutral_and_no_digit.1 "MA" (by decide)]
    decide
  · rw [C8_neutral_and_no_digit.2.1 "mA5" '5' (by decide) (Or.inl rfl)]
    decide

/-- Witness for claim C7: the general clause applied at "xo2", whose chosen
vowel is o, with the row entry at index 1. -/
theorem C7_witness : numberToTone "xo2" = "xó" := by
  rw [C7_tone_rows.2 "xo2" '2' 'o' (by decide) (by decide) (by decide) (by decide)]
  decide

/-! ### Claim C3 -/

/-- Claim C3: for every syllable ending in a tone digit 1-4, the converter
chooses the vowel to mark by scanning the fixed priority list - ü or v
jointly, then a, then e, then o, then i, then u - and marks the first
occurrence, in the digit-stripped lower-cased syllable, of the first listed
vowel present anywhere in it; when no listed vowel is present the stripped
text is returned.  chosenVowel is the stated rule written directly from the
spec wording, so this equation is the refinement of the code against it. -/
theorem C3_priority_scan :
    ∀ (s : String) (d : Char), lastDigit s = some d →
      (d = '1' ∨ d = '2' ∨ d = '3' ∨ d = '4') →
      numberToTone s =
        (match chosenVowel (stripLowerL s.toList) with
         | none => stripLowerL s.toList
         | some v =>
           replaceFirstP (classOf v) (toneRepl (TONE_MARKS v) (d.toNat - 48))
             (stripLowerL s.toList)).asString := by
  intro s d hd h14
  have h5 : d.toNat - 48 ≠ 5 := by
    rcases h14 with rfl | rfl | rfl | rfl <;> decide
  have h0 : d.toNat - 48 ≠ 0 := by
    rcases h14 with rfl | rfl | rfl | rfl <;> decide
  obtain ⟨hnone, hsome⟩ := nt_cases hd h5 h0
  rcases hv : chosenVowel (stripLowerL s.toList) with _ | v
  · exact hnone hv
  · exact hsome v hv

/-- Witness for claim C3: the priority equation applied at "hao3", whose
chosen vowel is a (not the left-to-right first candidate o after a), and
evaluated. -/
theorem C3_witness : numberToTone "hao3" = "hǎo" := by
  rw [C3_priority_scan "hao3" '3' (by decide) (Or.inr (Or.inr (Or.inl rfl)))]
  decide

/-! ### Claim C2 -/

/-- Claim C2, corrected.  The original claim says every malformed input
lands on one of exactly two silent fallbacks: the lower-cased input
unchanged, or the digit-stripped lower-cased text with no mark.  That is
true for a missing trailing digit, for neutral digits 5 and 0, and for a
remainder with no recognized vowel, and the embedded function is total, so
no input raises; but a trailing digit 6-9 with a recognized vowel present
instead substitutes the literal text "undefined" for the vowel, a third
kind of result, so the two-fallback taxonomy is amended with that case. -/
theorem C2_graceful_fallbacks :
    ∀ s : String,
      (lastDigit s = none → numberToTone s = (s.toList.map jsToLower).asString) ∧
      (∀ d, lastDigit s = some d → (d = '5' ∨ d = '0') →
        numberToTone s = (stripLowerL s.toList).asString) ∧
      (∀ d, lastDigit s = some d → chosenVowel (stripLowerL s.toList) = none →
        numberToTone s = (stripLowerL s.toList).asString) ∧
      (∀ d v, lastDigit s = some d → 54 ≤ d.toNat →
        chosenVowel (stripLowerL s.toList) = some v →
        numberToTone s =
          (replaceFirstP (classOf v) ("undefined".toList)
            (stripLowerL s.toList)).asString) := by
  intro s
  refine ⟨?_, ?_, ?_, ?_⟩
  · intro h
    exact numberToTone_eq_of_ntL (lastDigit_none_elim h)
  · intro d hd h50
    obtain ⟨hg, hdig⟩ := lastDigit_some_iff.mp hd
    apply numberToTone_eq_of_ntL
    apply ntL_neutral hg hdig
    rcases h50 with h | h <;> rw [h]
    · left
      decide
    · right
      decide
  · intro d hd hnone
    by_cases h50 : d.toNat - 48 = 5 ∨ d.toNat - 48 = 0
    · obtain ⟨hg, hdig⟩ := lastDigit_some_iff.mp hd
      exact numberToTone_eq_of_ntL (ntL_neutral hg hdig h50)
    · push_neg at h50
      exact (nt_cases hd h50.1 h50.2).1 hnone
  · intro d v hd h6 hv
    obtain ⟨hg, hdig⟩ := lastDigit_some_iff.mp hd
    have h57 : d.toNat ≤ 57 := (isDigit_iff.mp hdig).2
    have h5 : d.toNat - 48 ≠ 5 := by omega
    have h0 : d.toNat - 48 ≠ 0 := by omega
    have := (nt_cases hd h5 h0).2 v hv
    rw [this]
    have hrow := TONE_MARKS_len (chosenVowel_mem hv)
    rw [toneRepl_oob (by omega)]

/-- Counterexample for claim C2 as stated: at "ma6" the code produces
"mundefined", which is neither the lower-cased input unchanged nor the
digit-stripped lower-cased text. -/
theorem C2_cex :
    numberToTone "ma6" = "mundefined" ∧
    ("mundefined" : String) ≠ "ma6" ∧ ("mundefined" : String) ≠ "ma" := by
  exact ⟨by decide, by decide, by decide⟩

/-- Witness for claim C2: the no-recognized-vowel clause applied at "Xyz9"
and evaluated. -/
theorem C2_witness : numberToTone "Xyz9" = "xyz" := by
  rw [(C2_graceful_fallbacks "Xyz9").2.2.1 '9' (by decide) (by decide)]
  decide

/-! ### Claim C10 -/

/-- Claim C10: for every input ending in a digit 6-9 whose digit-stripped,
lower-cased remainder contains a priority vowel, the converter indexes past
the end of the four-element tone row and substitutes the literal text
"undefined" for the first occurrence of the chosen vowel class, as in
numberToTone of "ma6" giving "mundefined"; when the remainder has no
recognized vowel, the stripped lower-cased text is returned unchanged. -/
theorem C10_oob_undefined :
    numberToTone "ma6" = "mundefined" ∧
    ∀ (s : String) (d : Char), lastDigit s = some d → 54 ≤ d.toNat →
      ((chosenVowel (stripLowerL s.toList) = none →
        numberToTone s = (stripLowerL s.toList).asString) ∧
       ∀ v, chosenVowel (stripLowerL s.toList) = some v →
        numberToTone s =
          (replaceFirstP (classOf v) ("undefined".toList)
            (stripLowerL s.toList)).asString) := by
  refine ⟨by decide, ?_⟩
  intro s d hd h6
  obtain ⟨hg, hdig⟩ := lastDigit_some_iff.mp hd
  have h57 : d.toNat ≤ 57 := (isDigit_iff.mp hdig).2
  have h5 : d.toNat - 48 ≠ 5 := by omega
  have h0 : d.toNat - 48 ≠ 0 := by omega
  obtain ⟨hnone, hsome⟩ := nt_cases hd h5 h0
  refine ⟨hnone, ?_⟩
  intro v hv
  rw [hsome v hv]
  have hrow := TONE_MARKS_len (chosenVowel_mem hv)
  rw [toneRepl_oob (by omega)]

/-- Witness for claim C10: the out-of-range clause applied at "la7" and
evaluated. -/
theorem C10_witness : numberToTone "la7" = "lundefined" := by
  rw [(C10_oob_undefined.2 "la7" '7' (by decide) (by decide)).2 'a' (by decide)]
  decide

/-! ### Rewriter lemmas -/

lemma digit_not_ann {d : Char} (hd : d.isDigit = true) : isAnnLetter d = false := by
  rw [isDigit_iff] at hd
  by_cases h : isAnnLetter d = true
  · rw [isAnnLetter_iff] at h
    omega
  · simpa using h

lemma tryAnnAux_none_cond {L : List Char} {d rbr : Char} {t : List Char}
    (h : tryAnnAux L (d :: rbr :: t) = none) :
    ¬(L ≠ [] ∧ d.isDigit = true ∧ rbr = ']') := by
  intro hc
  have h' : (if L ≠ [] ∧ d.isDigit = true ∧ rbr = ']' then some (L ++ [d], t)
      else none) = (none : Option (List Char × List Char)) := h
  rw [if_pos hc] at h'
  exact Option.noConfusion h'

lemma tryAnnAux_cond_neg {L : List Char} {d rbr : Char} {t : List Char}
    (h : ¬(L ≠ [] ∧ d.isDigit = true ∧ rbr = ']')) :
    tryAnnAux L (d :: rbr :: t) = none := by
  show (if L ≠ [] ∧ d.isDigit = true ∧ rbr = ']' then some (L ++ [d], t)
      else none) = (none : Option (List Char × List Char))
  rw [if_neg h]

lemma tryAnnAux_first_not_digit {L : List Char} {x : Char} {rest : List Char}
    (hx : x.isDigit = false) : tryAnnAux L (x :: rest) = none := by
  cases rest with
  | nil => rfl
  | cons y t =>
    apply tryAnnAux_cond_neg
    intro hc
    rw [hc.2.1] at hx
    cases hx

lemma dropWhile_head_false {p : Char → Bool} :
    ∀ {l : List Char} {x : Char} {t : List Char}, l.dropWhile p = x :: t →
      p x = false := by
  intro l
  induction l with
  | nil =>
    intro x t h
    cases h
  | cons c l' ih =>
    intro x t h
    rw [List.dropWhile_cons] at h
    by_cases hc : p c = true
    · rw [if_pos hc] at h
      exact ih h
    · rw [if_neg hc] at h
      cases h
      simpa using hc

lemma tryAnn_none_of_head {l : List Char}
    (h : ∀ c, (l.dropWhile isAnnLetter).head? = some c → c.isDigit = false) :
    tryAnn l = none := by
  unfold tryAnn
  rcases hdw : l.dropWhile isAnnLetter with _ | ⟨x, _ | ⟨y, t⟩⟩
  · rfl
  · rfl
  · apply tryAnnAux_cond_neg
    intro hc
    have := h x (by rw [hdw]; rfl)
    rw [hc.2.1] at this
    cases this

lemma rewriteAux_copy :
    ∀ (p : List Char), (∀ e ∈ p, e ≠ '[') →
      ∀ l, rewriteAux (p ++ l) = p ++ rewriteAux l := by
  intro p
  induction p with
  | nil =>
    intro _ l
    rfl
  | cons e p' ih =>
    intro hp l
    rw [List.cons_append, rewriteAux_cons, if_neg (hp e (by simp))]
    rw [ih (fun x hx => hp x (by simp [hx])) l]
    rfl

lemma hasAnn_cons_false {c : Char} {rest : List Char} (h : hasAnn (c :: rest) = false) :
    ((c == '[') && (tryAnn rest).isSome) = false ∧ hasAnn rest = false := by
  unfold hasAnn at h
  exact Bool.or_eq_false_iff.mp h

lemma rewriteAux_id_of_no_match : ∀ l, hasAnn l = false → rewriteAux l = l := by
  intro l
  induction l with
  | nil =>
    intro _
    rfl
  | cons c rest ih =>
    intro h
    obtain ⟨h1, h2⟩ := hasAnn_cons_false h
    by_cases hc : c = '['
    · subst hc
      have hsome : (tryAnn rest).isSome = false := by simpa using h1
      have hnone : tryAnn rest = none := by
        rcases htry : tryAnn rest with _ | pr
        · rfl
        · rw [htry] at hsome
          cases hsome
      rw [rewriteAux_cons, if_pos rfl]
      simp only [hnone]
      rw [ih h2]
    · rw [rewriteAux_cons, if_neg hc, ih h2]

lemma option_isSome_false {α : Type} {o : Option α} (h : o.isSome = false) :
    o = none := by
  cases o with
  | none => rfl
  | some a => simp at h

lemma takeWhile_len_ne {p : List Char} {x : Char} {t : List Char}
    (hdw : p.dropWhile isAnnLetter = x :: t) :
    (p.takeWhile isAnnLetter).length ≠ p.length := by
  have hlen : (p.takeWhile isAnnLetter).length + (p.dropWhile isAnnLetter).length
      = p.length := by
    conv_rhs => rw [← List.takeWhile_append_dropWhile isAnnLetter p]
    rw [List.length_append]
  rw [hdw] at hlen
  simp only [List.length_cons] at hlen
  omega

/-- A failed pattern attempt stays failed when the text continues with an
opening bracket: the bracket is neither a class letter, a digit, nor the
closing bracket, so it cannot complete the pattern tail. -/
lemma tryAnn_append_bracket {p ys : List Char} (h : tryAnn p = none) :
    tryAnn (p ++ '[' :: ys) = none := by
  rcases hdw : p.dropWhile isAnnLetter with _ | ⟨x, t⟩
  · have hall : ∀ e ∈ p, isAnnLetter e = true := List.dropWhile_eq_nil_iff.mp hdw
    unfold tryAnn
    rw [List.dropWhile_append, hdw]
    simp only [List.isEmpty_nil, eq_self_iff_true, if_true]
    rw [List.dropWhile_cons_of_neg (by decide)]
    cases ys with
    | nil => rfl
    | cons y t' => exact tryAnnAux_first_not_digit (by decide)
  · unfold tryAnn at h ⊢
    rw [List.dropWhile_append, hdw]
    rw [if_neg (by simp)]
    rw [List.takeWhile_append, if_neg (takeWhile_len_ne hdw)]
    rw [hdw] at h
    cases t with
    | nil =>
      simp only [List.cons_append, List.nil_append]
      apply tryAnnAux_cond_neg
      intro hc
      exact absurd hc.2.2 (by decide)
    | cons y t' =>
      have hcond := tryAnnAux_none_cond h
      simp only [List.cons_append]
      apply tryAnnAux_cond_neg
      exact fun hc => hcond ⟨hc.1, hc.2.1, hc.2.2⟩

/-- The pattern attempt right after an opening bracket followed by a
nonempty letter run, one digit and the closing bracket succeeds, capturing
the run with the digit and the remaining text. -/
lemma tryAnn_success {s : List Char} {d : Char} {suf : List Char}
    (hs : s ≠ []) (hall : ∀ e ∈ s, isAnnLetter e = true) (hd : d.isDigit = true) :
    tryAnn (s ++ d :: ']' :: suf) = some (s ++ [d], suf) := by
  unfold tryAnn
  rw [List.takeWhile_append_of_pos hall, List.dropWhile_append_of_pos hall]
  rw [List.takeWhile_cons_of_neg (by simp [digit_not_ann hd]),
    List.dropWhile_cons_of_neg (by simp [digit_not_ann hd])]
  rw [List.append_nil]
  show (if s ≠ [] ∧ d.isDigit = true ∧ (']' : Char) = ']' then some (s ++ [d], suf)
      else none) = some (s ++ [d], suf)
  rw [if_pos ⟨hs, hd, rfl⟩]

/-- Scanning match-free text followed by a bracketed match copies the text,
substitutes the bracketed conversion, and continues after the closing
bracket. -/
lemma rewriteAux_match :
    ∀ (pre : List Char), hasAnn pre = false →
      ∀ (s : List Char) (d : Char) (suf : List Char),
        s ≠ [] → (∀ e ∈ s, isAnnLetter e = true) → d.isDigit = true →
        rewriteAux (pre ++ '[' :: (s ++ d :: ']' :: suf)) =
          pre ++ '[' :: (numberToToneL (s ++ [d]) ++ ']' :: rewriteAux suf) := by
  intro pre
  induction pre with
  | nil =>
    intro _ s d suf hs hall hd
    rw [List.nil_append, List.nil_append, rewriteAux_cons, if_pos rfl]
    simp only [tryAnn_success hs hall hd]
  | cons e pre' ih =>
    intro hpre s d suf hs hall hd
    obtain ⟨h1, h2⟩ := hasAnn_cons_false hpre
    rw [List.cons_append, rewriteAux_cons]
    by_cases he : e = '['
    · subst he
      have hnone : tryAnn pre' = none := option_isSome_false (by simpa using h1)
      simp only [tryAnn_append_bracket hnone]
      rw [ih h2 s d suf hs hall hd]
      simp only [List.cons_append]
      exact if_pos trivial
    · rw [if_neg he, ih h2 s d suf hs hall hd]
      simp only [List.cons_append]

/-! ### Claim C4 -/

/-- Claim C4: the rewriter replaces each non-overlapping bracketed
letters-plus-digit match by the bracketed conversion of its capture at the
same position, preserves every character outside the matched brackets
verbatim and in order, and returns the input unchanged when it contains no
match; the three quoted examples evaluate as stated, text with no match is
the identity, and the general clause shows a match preceded by match-free
text rewrites to the copied text, the converted bracket, and the rewritten
remainder. -/
theorem C4_rewrite_annotations :
    formatMeaningWithPinyin "horse [ma3]" = "horse [mǎ]" ∧
    formatMeaningWithPinyin "no brackets here" = "no brackets here" ∧
    formatMeaningWithPinyin "[ba1] and [ma3]" = "[bā] and [mǎ]" ∧
    (∀ t : String, hasAnn t.toList = false → formatMeaningWithPinyin t = t) ∧
    (∀ (pre s : List Char) (d : Char) (suf : List Char),
      hasAnn pre = false → s ≠ [] → (∀ e ∈ s, isAnnLetter e = true) →
      d.isDigit = true →
      rewriteAux (pre ++ '[' :: (s ++ d :: ']' :: suf)) =
        pre ++ '[' :: (numberToToneL (s ++ [d]) ++ ']' :: rewriteAux suf)) := by
  refine ⟨by decide, by decide, by decide, ?_,
    fun pre s d suf hpre hs hall hd => rewriteAux_match pre hpre s d suf hs hall hd⟩
  intro t ht
  unfold formatMeaningWithPinyin
  rw [rewriteAux_id_of_no_match t.toList ht, String.asString_toList]

/-- Witness for claim C4: the general clause applied to the text "x [ma3]y"
split as match-free prefix, capture and remainder, then evaluated. -/
theorem C4_witness : rewriteAux ("x [ma3]y".toList) = "x [mǎ]y".toList := by
  have e1 : "x [ma3]y".toList =
      "x ".toList ++ '[' :: ("ma".toList ++ '3' :: ']' :: "y".toList) := by decide
  have h := C4_rewrite_annotations.2.2.2.2 ("x ".toList) ("ma".toList) '3' ("y".toList)
    (by decide) (by decide) (by decide) (by decide)
  rw [e1, h]
  decide

/-! ### Idempotence machinery for the rewriter -/

lemma mem_replaceFirstP {p : Char → Bool} {repl : List Char} :
    ∀ {l : List Char} {c : Char}, c ∈ replaceFirstP p repl l → c ∈ repl ∨ c ∈ l := by
  intro l
  induction l with
  | nil =>
    intro c hc
    exact absurd hc (List.not_mem_nil c)
  | cons a l' ih =>
    intro c hc
    by_cases hpa : p a = true
    · have he : replaceFirstP p repl (a :: l') = repl ++ l' := by
        simp only [replaceFirstP]
        rw [if_pos hpa]
      rw [he] at hc
      rcases List.mem_append.mp hc with h | h
      · exact Or.inl h
      · exact Or.inr (List.mem_cons_of_mem a h)
    · have he : replaceFirstP p repl (a :: l') = a :: replaceFirstP p repl l' := by
        simp only [replaceFirstP]
        rw [if_neg hpa]
      rw [he] at hc
      rcases List.mem_cons.mp hc with h | h
      · exact Or.inr (h ▸ List.mem_cons_self a l')
      · rcases ih h with h2 | h2
        · exact Or.inl h2
        · exact Or.inr (List.mem_cons_of_mem a h2)

lemma mem_toneRepl {row : List Char} {tone : Nat} {c : Char}
    (hc : c ∈ toneRepl row tone) : c ∈ row ∨ c ∈ "undefined".toList := by
  revert hc
  unfold toneRepl
  rcases hg : row.get? (tone - 1) with _ | m <;> intro hc
  · exact Or.inr hc
  · have hcm : c ∈ [m] := hc
    rw [List.mem_singleton] at hcm
    exact Or.inl (hcm ▸ List.get?_mem hg)

lemma TONE_MARKS_chars {v c : Char} (hc : c ∈ TONE_MARKS v) :
    c.isDigit = false ∧ c ≠ '[' := by
  unfold TONE_MARKS at hc
  split_ifs at hc <;>
    simp only [List.mem_cons, List.not_mem_nil, or_false] at hc <;>
    rcases hc with rfl | rfl | rfl | rfl <;>
    exact ⟨by decide, by decide⟩

lemma undefined_chars : ∀ c ∈ "undefined".toList, c.isDigit = false ∧ c ≠ '[' := by
  decide

/-- Every character of a converted capture (class letters plus one digit)
is neither a digit nor an opening bracket: lower-cased letters stay
letters, tone marks and the fallback text "undefined" contain no digit and
no bracket. -/
lemma ntL_out_chars {L : List Char} {d : Char}
    (hall : ∀ e ∈ L, isAnnLetter e = true) (hd : d.isDigit = true) :
    ∀ c ∈ numberToToneL (L ++ [d]), c.isDigit = false ∧ c ≠ '[' := by
  have hg : (L ++ [d]).getLast? = some d := List.getLast?_concat L
  have hdl : (L ++ [d]).dropLast = L := by simp
  have hmap : ∀ c ∈ L.map jsToLower, c.isDigit = false ∧ c ≠ '[' := by
    intro c hcm
    obtain ⟨e, he, rfl⟩ := List.mem_map.mp hcm
    have hj := jsToLower_ann (hall e he)
    constructor
    · by_cases hd2 : (jsToLower e).isDigit = true
      · rw [isDigit_iff] at hd2
        omega
      · simpa using hd2
    · intro heq
      have h91 : (jsToLower e).toNat = 91 := by rw [heq]; rfl
      omega
  by_cases h50 : d.toNat - 48 = 5 ∨ d.toNat - 48 = 0
  · rw [ntL_neutral hg hd h50, hdl]
    exact hmap
  · push_neg at h50
    rw [ntL_toned hg hd h50.1 h50.2, hdl]
    rcases hv : chosenVowel (L.map jsToLower) with _ | v
    · intro c hc
      exact hmap c hc
    · intro c hc
      have hc' : c ∈ replaceFirstP (classOf v)
          (toneRepl (TONE_MARKS v) (d.toNat - 48)) (L.map jsToLower) := hc
      rcases mem_replaceFirstP hc' with hmem | hmem
      · rcases mem_toneRepl hmem with hrow | hund
        · exact TONE_MARKS_chars hrow
        · exact undefined_chars c hund
      · exact hmap c hmem

/-- A converted capture followed by the closing bracket can never open a
new pattern match: the first non-letter position holds no digit. -/
lemma tryAnn_conv_none {conv X : List Char}
    (hnd : ∀ c ∈ conv, c.isDigit = false) :
    tryAnn (conv ++ ']' :: X) = none := by
  apply tryAnn_none_of_head
  intro c hc
  rcases hdw : conv.dropWhile isAnnLetter with _ | ⟨x, t⟩
  · rw [List.dropWhile_append, hdw] at hc
    simp only [List.isEmpty_nil, eq_self_iff_true, if_true] at hc
    rw [List.dropWhile_cons_of_neg (by decide)] at hc
    simp only [List.head?_cons, Option.some.injEq] at hc
    rw [← hc]
    decide
  · rw [List.dropWhile_append, hdw] at hc
    rw [if_neg (by simp)] at hc
    simp only [List.cons_append, List.head?_cons, Option.some.injEq] at hc
    subst hc
    apply hnd
    exact (List.dropWhile_sublist isAnnLetter).subset (by rw [hdw]; exact List.mem_cons_self x t)

lemma rewriteAux_cons_head (c : Char) (t : List Char) :
    ∃ t', rewriteAux (c :: t) = c :: t' := by
  rw [rewriteAux_cons]
  by_cases hc : c = '['
  · subst hc
    rw [if_pos rfl]
    rcases h : tryAnn t with _ | ⟨syl, tl⟩
    · exact ⟨_, rfl⟩
    · exact ⟨_, rfl⟩
  · rw [if_neg hc]
    exact ⟨_, rfl⟩

/-- A failed pattern attempt stays failed after rewriting the scanned
text: the letter run is copied, and the two following positions keep
characters that still fail the digit-and-closing-bracket test. -/
lemma tryAnn_rewrite_none {r : List Char} (h : tryAnn r = none) :
    tryAnn (rewriteAux r) = none := by
  have hall : ∀ e ∈ r.takeWhile isAnnLetter, isAnnLetter e = true :=
    fun e he => List.mem_takeWhile_imp he
  have hnb : ∀ e ∈ r.takeWhile isAnnLetter, e ≠ '[' := by
    intro e he heq
    have h2 := hall e he
    rw [heq] at h2
    exact absurd h2 (by decide)
  rcases hdw : r.dropWhile isAnnLetter with _ | ⟨x, t⟩
  · have hrall : ∀ e ∈ r, e ≠ '[' := by
      intro e he heq
      have h2 := (List.dropWhile_eq_nil_iff.mp hdw) e he
      rw [heq] at h2
      exact absurd h2 (by decide)
    have hid : rewriteAux r = r := by
      have h2 := rewriteAux_copy r hrall []
      simpa [rewriteAux_nil] using h2
    rw [hid]
    exact h
  · have hx : isAnnLetter x = false := dropWhile_head_false hdw
    have hre : rewriteAux r = r.takeWhile isAnnLetter ++ rewriteAux (x :: t) := by
      conv_lhs => rw [(List.takeWhile_append_dropWhile isAnnLetter r).symm, hdw]
      rw [rewriteAux_copy _ hnb]
    obtain ⟨t2, hxt⟩ := rewriteAux_cons_head x t
    rw [hre, hxt]
    unfold tryAnn
    rw [List.takeWhile_append_of_pos hall, List.takeWhile_cons_of_neg (by simp [hx]),
      List.append_nil, List.dropWhile_append_of_pos hall,
      List.dropWhile_cons_of_neg (by simp [hx])]
    by_cases hxd : x.isDigit = true
    · have hxlb : x ≠ '[' := by
        intro he
        rw [he] at hxd
        exact absurd hxd (by decide)
      have hxt' : rewriteAux (x :: t) = x :: rewriteAux t := by
        rw [rewriteAux_cons, if_neg hxlb]
      have ht2 : t2 = rewriteAux t := by
        rw [hxt] at hxt'
        exact (List.cons_eq_cons.mp hxt').2
      rw [ht2]
      unfold tryAnn at h
      rw [hdw] at h
      cases t with
      | nil => rfl
      | cons y t' =>
        have hcond := tryAnnAux_none_cond h
        obtain ⟨t3, hyt⟩ := rewriteAux_cons_head y t'
        rw [hyt]
        by_cases hL : r.takeWhile isAnnLetter = []
        · exact tryAnnAux_cond_neg (fun hc => hc.1 hL)
        · exact tryAnnAux_cond_neg (fun hc => hcond ⟨hL, hxd, hc.2.2⟩)
    · exact tryAnnAux_first_not_digit (by simpa using hxd)

lemma rewriteAux_idem_n :
    ∀ (n : Nat) (l : List Char), l.length ≤ n →
      rewriteAux (rewriteAux l) = rewriteAux l := by
  intro n
  induction n with
  | zero =>
    intro l hl
    rw [Nat.le_zero, List.length_eq_zero] at hl
    subst hl
    rfl
  | succ m ih =>
    intro l hl
    cases l with
    | nil => rfl
    | cons c rest =>
      simp only [List.length_cons] at hl
      by_cases hc : c = '['
      · subst hc
        rcases ha : tryAnn rest with _ | ⟨syl, tail⟩
        · have h1 : rewriteAux ('[' :: rest) = '[' :: rewriteAux rest := by
            rw [rewriteAux_cons, if_pos rfl]
            simp only [ha]
          rw [h1, rewriteAux_cons, if_pos rfl]
          simp only [tryAnn_rewrite_none ha]
          rw [ih rest (by omega)]
        · obtain ⟨d, hrest, hne, hd, hsyl⟩ := tryAnn_some_elim ha
          have hall : ∀ e ∈ rest.takeWhile isAnnLetter, isAnnLetter e = true :=
            fun e he => List.mem_takeWhile_imp he
          have hconv : ∀ e ∈ numberToToneL syl, e.isDigit = false ∧ e ≠ '[' := by
            rw [hsyl]
            exact ntL_out_chars hall hd
          have htail := tryAnn_some_length ha
          have h1 : rewriteAux ('[' :: rest) =
              '[' :: (numberToToneL syl ++ ']' :: rewriteAux tail) := by
            rw [rewriteAux_cons, if_pos rfl]
            simp only [ha]
          rw [h1, rewriteAux_cons, if_pos rfl]
          simp only [tryAnn_conv_none (fun e he => (hconv e he).1)]
          rw [rewriteAux_copy (numberToToneL syl) (fun e he => (hconv e he).2)]
          rw [rewriteAux_cons, if_neg (by decide)]
          rw [ih tail (by omega)]
      · have h1 : rewriteAux (c :: rest) = c :: rewriteAux rest := by
          rw [rewriteAux_cons, if_neg hc]
        rw [h1, rewriteAux_cons, if_neg hc, ih rest (by omega)]

/-! ### Claim C9 -/

/-- Claim C9: the rewriter is idempotent.  Every substituted bracket
content consists of letters, tone marks or the fallback text "undefined"
and contains no digit, so no replacement can itself match, or combine with
the surrounding text to match, the annotation pattern on a second pass. -/
theorem C9_idempotent (t : String) :
    formatMeaningWithPinyin (formatMeaningWithPinyin t) = formatMeaningWithPinyin t := by
  unfold formatMeaningWithPinyin
  rw [List.toList_asString]
  rw [rewriteAux_idem_n t.toList.length t.toList (le_refl _)]

/-! ### Claim C6 machinery -/

lemma subst_lower_rel (c : Char) :
    (isUV (jsToLower (if c = 'ü' then 'v' else c)) = isUV (jsToLower c)) ∧
    (isUV (jsToLower c) = false → jsToLower (if c = 'ü' then 'v' else c) = jsToLower c) := by
  by_cases hc : c = 'ü'
  · subst hc
    rw [if_pos rfl]
    constructor
    · decide
    · intro h
      exact absurd h (by decide)
  · rw [if_neg hc]
    exact ⟨rfl, fun _ => rfl⟩

lemma any_map_subst (z : List Char) :
    (z.map (fun c => jsToLower (if c = 'ü' then 'v' else c))).any isUV =
      (z.map jsToLower).any isUV := by
  induction z with
  | nil => rfl
  | cons a z' ih =>
    simp only [List.map_cons, List.any_cons, ih, (subst_lower_rel a).1]

lemma map_subst_eq_of_count0 :
    ∀ (z : List Char), (z.map jsToLower).countP isUV = 0 →
      z.map (fun c => jsToLower (if c = 'ü' then 'v' else c)) = z.map jsToLower := by
  intro z
  induction z with
  | nil =>
    intro _
    rfl
  | cons a z' ih =>
    intro h
    rw [List.map_cons, List.countP_cons] at h
    by_cases ha : isUV (jsToLower a) = true
    · rw [if_pos ha] at h
      omega
    · rw [if_neg ha] at h
      rw [List.map_cons, List.map_cons, ih h,
        (subst_lower_rel a).2 (by simpa using ha)]

lemma replaceFirst_map_subst (m : List Char) :
    ∀ (z : List Char), (z.map jsToLower).countP isUV ≤ 1 →
      replaceFirstP isUV m (z.map (fun c => jsToLower (if c = 'ü' then 'v' else c))) =
        replaceFirstP isUV m (z.map jsToLower) := by
  intro z
  induction z with
  | nil =>
    intro _
    rfl
  | cons a z' ih =>
    intro hc
    rw [List.map_cons, List.countP_cons] at hc
    rw [List.map_cons, List.map_cons]
    by_cases ha : isUV (jsToLower a) = true
    · have ha' : isUV (jsToLower (if a = 'ü' then 'v' else a)) = true := by
        rw [(subst_lower_rel a).1]
        exact ha
      have e1 : replaceFirstP isUV m (jsToLower (if a = 'ü' then 'v' else a) ::
          z'.map (fun c => jsToLower (if c = 'ü' then 'v' else c))) =
          m ++ z'.map (fun c => jsToLower (if c = 'ü' then 'v' else c)) := by
        simp only [replaceFirstP]
        rw [if_pos ha']
      have e2 : replaceFirstP isUV m (jsToLower a :: z'.map jsToLower) =
          m ++ z'.map jsToLower := by
        simp only [replaceFirstP]
        rw [if_pos ha]
      rw [e1, e2]
      rw [if_pos ha] at hc
      rw [map_subst_eq_of_count0 z' (by omega)]
    · have ha' : isUV (jsToLower (if a = 'ü' then 'v' else a)) = false := by
        rw [(subst_lower_rel a).1]
        simpa using ha
      have e1 : replaceFirstP isUV m (jsToLower (if a = 'ü' then 'v' else a) ::
          z'.map (fun c => jsToLower (if c = 'ü' then 'v' else c))) =
          jsToLower (if a = 'ü' then 'v' else a) ::
            replaceFirstP isUV m (z'.map (fun c => jsToLower (if c = 'ü' then 'v' else c))) := by
        simp only [replaceFirstP]
        rw [if_neg (by simp [ha'])]
      have e2 : replaceFirstP isUV m (jsToLower a :: z'.map jsToLower) =
          jsToLower a :: replaceFirstP isUV m (z'.map jsToLower) := by
        simp only [replaceFirstP]
        rw [if_neg (by simp [ha])]
      rw [if_neg ha] at hc
      rw [e1, e2, ih (by omega), (subst_lower_rel a).2 (by simpa using ha)]

lemma uv_contains_of_any {zq : List Char} (h : zq.any isUV = true) :
    zq.contains 'ü' ∨ zq.contains 'v' := by
  rw [List.any_eq_true] at h
  obtain ⟨x, hx, hUV⟩ := h
  unfold isUV at hUV
  simp only [Bool.or_eq_true, beq_iff_eq] at hUV
  rcases hUV with rfl | rfl
  · left
    rw [List.contains_eq_any_beq, List.any_eq_true]
    exact ⟨'ü', hx, by decide⟩
  · right
    rw [List.contains_eq_any_beq, List.any_eq_true]
    exact ⟨'v', hx, by decide⟩

lemma uv_any_of_contains {zq : List Char} (h : zq.contains 'ü' ∨ zq.contains 'v') :
    zq.any isUV = true := by
  rw [List.any_eq_true]
  rcases h with h | h <;> rw [List.contains_eq_any_beq, List.any_eq_true] at h <;>
    obtain ⟨x, hx, hbeq⟩ := h <;> refine ⟨x, hx, ?_⟩ <;>
    simp only [beq_iff_eq] at hbeq <;> subst hbeq <;> decide

lemma chosenVowel_uv {q : List Char} (h : q.contains 'ü' ∨ q.contains 'v') :
    chosenVowel q = some 'ü' := by
  unfold chosenVowel
  rw [if_pos h]

/-! ### Claim C6 -/

/-- Claim C6, corrected.  The original claim says replacing ü by v never
changes the output.  That fails on neutral-tone syllables, where the
letters pass through literally ("lü5" gives "lü" but "lv5" gives "lv"),
and on syllables with two ü/v letters, where only the first is replaced by
the mark and the second stays as typed ("üü3" gives "ǚü" but "vv3" gives
"ǚv").  The alias does hold - and the quoted examples lv3 and lü3 agree -
for syllables ending in a tone digit 1-4 whose digit-stripped lower-cased
form has at most one character from the ü/v class. -/
theorem C6_uv_alias :
    (∀ (s : String) (d : Char), lastDigit s = some d →
      (d = '1' ∨ d = '2' ∨ d = '3' ∨ d = '4') →
      (stripLowerL s.toList).countP isUV ≤ 1 →
      numberToTone (substUV s) = numberToTone s) ∧
    numberToTone "lv3" = "lǚ" ∧ numberToTone "lü3" = "lǚ" := by
  refine ⟨?_, by decide, by decide⟩
  intro s d hd h14 hcount
  obtain ⟨hg, hdig⟩ := lastDigit_some_iff.mp hd
  have h5 : d.toNat - 48 ≠ 5 := by
    rcases h14 with rfl | rfl | rfl | rfl <;> decide
  have h0 : d.toNat - 48 ≠ 0 := by
    rcases h14 with rfl | rfl | rfl | rfl <;> decide
  have hfd : (if d = 'ü' then 'v' else d) = d := by
    rcases h14 with rfl | rfl | rfl | rfl <;> rfl
  have hg' : (s.toList.map (fun c => if c = 'ü' then 'v' else c)).getLast? = some d := by
    rw [List.getLast?_map, hg, Option.map_some']
    rw [hfd]
  unfold numberToTone substUV
  rw [List.toList_asString]
  apply congrArg
  rw [ntL_toned hg' hdig h5 h0, ntL_toned hg hdig h5 h0]
  have hq' : (s.toList.map (fun c => if c = 'ü' then 'v' else c)).dropLast.map jsToLower
      = s.toList.dropLast.map (fun c => jsToLower (if c = 'ü' then 'v' else c)) := by
    rw [← List.map_dropLast, List.map_map]
    rfl
  rw [hq']
  by_cases huv : (s.toList.dropLast.map jsToLower).contains 'ü' ∨
      (s.toList.dropLast.map jsToLower).contains 'v'
  · have hany : (s.toList.dropLast.map
        (fun c => jsToLower (if c = 'ü' then 'v' else c))).any isUV = true := by
      rw [any_map_subst]
      exact uv_any_of_contains huv
    have huv' := uv_contains_of_any hany
    rw [chosenVowel_uv huv, chosenVowel_uv huv']
    exact replaceFirst_map_subst (toneRepl (TONE_MARKS 'ü') (d.toNat - 48))
      s.toList.dropLast hcount
  · have hany : (s.toList.dropLast.map jsToLower).any isUV = false := by
      rcases hb : (s.toList.dropLast.map jsToLower).any isUV
      · rfl
      · exact absurd (uv_contains_of_any hb) huv
    have hzero : (s.toList.dropLast.map jsToLower).countP isUV = 0 := by
      rw [List.countP_eq_zero]
      intro a ha hUV
      have h2 : (s.toList.dropLast.map jsToLower).any isUV = true :=
        List.any_eq_true.mpr ⟨a, ha, hUV⟩
      rw [hany] at h2
      cases h2
    rw [map_subst_eq_of_count0 s.toList.dropLast hzero]

/-- Counterexample for claim C6 as stated: replacing ü by v changes the
output on the neutral-tone syllable "lü5" and on the double-ü syllable
"üü3". -/
theorem C6_cex :
    substUV "lü5" = "lv5" ∧ numberToTone "lv5" ≠ numberToTone "lü5" ∧
    substUV "üü3" = "vv3" ∧ numberToTone "vv3" ≠ numberToTone "üü3" := by
  exact ⟨by decide, by decide, by decide, by decide⟩

/-- Witness for claim C6: the alias clause applied at "lü3" - whose
substituted form is "lv3" - and the converted value, evaluated. -/
theorem C6_witness :
    numberToTone (substUV "lü3") = numberToTone "lü3" ∧ numberToTone "lü3" = "lǚ" := by
  constructor
  · exact C6_uv_alias.1 "lü3" '3' (by decide) (Or.inr (Or.inr (Or.inl rfl))) (by decide)
  · decide

end LearnMandarin
